import Mathlib

/-!
Shallow embedding of `src/Corrade/Containers/Pointer.h`: the move-only owning
handle `Pointer<T>` and its free helper functions. Heap cells are identified by
natural-number ids; a model heap records the next fresh id, the live cells with
their stored values, and the multiset of ids that have been passed to a
deallocation. A trace machine over handle operations is used to state global
ownership properties (no double-free, no leak).
-/

set_option maxHeartbeats 1000000

/-- A model heap: `next` is the next fresh cell id, `mem` maps live cell ids
to their stored values (most recent allocation first), and `frees` records
every id ever passed to `delete`, with multiplicity. -/
structure Heap (α : Type) where
  next : Nat
  mem : List (Nat × α)
  frees : List Nat
  deriving DecidableEq, Repr

variable {α : Type}

/-- Allocation (`new T{...}`): returns the fresh cell id and the grown heap. -/
def Heap.alloc (h : Heap α) (v : α) : Nat × Heap α :=
  (h.next, { next := h.next + 1, mem := (h.next, v) :: h.mem, frees := h.frees })

/-- Read the value stored at cell `n`, if live. -/
def Heap.lookup (h : Heap α) (n : Nat) : Option α :=
  List.lookup n h.mem

/-- `delete` on a possibly-null pointer: `delete nullptr` is a no-op; deleting
a cell removes it from the live cells and records the deallocation. -/
def Heap.deleteP (h : Heap α) : Option Nat → Heap α
  | none => h
  | some n => { next := h.next, mem := h.mem.filter (fun kv => kv.1 != n), frees := n :: h.frees }

/-- `Pointer<T>`: the single data member `_pointer`, a possibly-null pointer
modelled as an optional cell id (`none` = `nullptr`). -/
structure Pointer where
  _pointer : Option Nat
  deriving DecidableEq, Repr

/-- `Pointer(std::nullptr_t = nullptr)`: default / null construction,
initializes `_pointer{}` (null). No heap interaction. -/
def Pointer.nil : Pointer := { _pointer := none }

/-- `explicit Pointer(T* pointer)`: adopt a raw pointer, `_pointer{pointer}`.
No heap interaction. -/
def Pointer.ofRawPtr (q : Option Nat) : Pointer := { _pointer := q }

/-- `Pointer(InPlaceInitT, Args&&... args)`: `_pointer{new T{args...}}`. -/
def Pointer.inPlaceInit (h : Heap α) (v : α) : Pointer × Heap α :=
  ({ _pointer := some (h.alloc v).1 }, (h.alloc v).2)

/-- `Pointer(Pointer&& other)`: the new handle takes `other._pointer`, then
`other._pointer = nullptr`. Returns (constructed handle, source afterwards). -/
def Pointer.moveCtor (other : Pointer) : Pointer × Pointer :=
  ({ _pointer := other._pointer }, { _pointer := none })

/-- `operator=(Pointer&& other)`: `std::swap(_pointer, other._pointer)`.
Returns (self afterwards, other afterwards). -/
def Pointer.moveAssign (self other : Pointer) : Pointer × Pointer :=
  ({ _pointer := other._pointer }, { _pointer := self._pointer })

/-- `operator==(std::nullptr_t)`: `!_pointer`. -/
def Pointer.beqNull (p : Pointer) : Bool := p._pointer.isNone

/-- `operator!=(std::nullptr_t)`: `_pointer` (contextually converted). -/
def Pointer.bneNull (p : Pointer) : Bool := p._pointer.isSome

/-- `~Pointer()`: `delete _pointer`. -/
def Pointer.destructor (h : Heap α) (p : Pointer) : Heap α :=
  h.deleteP p._pointer

/-- `explicit operator bool()`: `_pointer` (contextually converted). -/
def Pointer.toBool (p : Pointer) : Bool := p._pointer.isSome

/-- `get()`: returns `_pointer`. -/
def Pointer.get (p : Pointer) : Option Nat := p._pointer

/-- The diagnostic used by the null-dereference assertion in this header. -/
def pointerNullMsg : String := "Containers::Pointer: the pointer is null"

/-- CORRADE_ASSERT(condition, message, returnValue): when the condition fails
the assertion facility reports the message (and, in a checked build, halts);
otherwise execution continues with no report. -/
def corradeAssert (cond : Bool) (message : String) : Option String :=
  if cond then none else some message

/-- `operator->()`: `CORRADE_ASSERT(_pointer, ..., nullptr); return _pointer;`.
The error branch reports the fixed diagnostic. -/
def Pointer.arrow (p : Pointer) : Except String (Option Nat) :=
  match corradeAssert p._pointer.isSome pointerNullMsg with
  | some msg => Except.error msg
  | none => Except.ok p._pointer

/-- `operator*()`: `CORRADE_ASSERT(_pointer, ..., *_pointer); return *_pointer;`.
On success the referent's stored value is read from the heap. -/
def Pointer.star (h : Heap α) (p : Pointer) : Except String (Option α) :=
  match corradeAssert p._pointer.isSome pointerNullMsg with
  | some msg => Except.error msg
  | none =>
    match p._pointer with
    | some n => Except.ok (h.lookup n)
    | none => Except.ok none

/-- `reset(T* pointer)`: `delete _pointer; _pointer = pointer;`. -/
def Pointer.reset (p : Pointer) (h : Heap α) (q : Option Nat) : Pointer × Heap α :=
  ({ _pointer := q }, h.deleteP p._pointer)

/-- `emplace(Args&&... args)`: `delete _pointer; _pointer = new T{args...};
return *_pointer;`. The third component is the returned reference (the cell id
of the newly constructed value). -/
def Pointer.emplace (p : Pointer) (h : Heap α) (v : α) : Pointer × Heap α × Nat :=
  ({ _pointer := some ((h.deleteP p._pointer).alloc v).1 },
   ((h.deleteP p._pointer).alloc v).2,
   ((h.deleteP p._pointer).alloc v).1)

/-- `release()`: `T* const out = _pointer; _pointer = nullptr; return out;`.
Returns (returned raw pointer, handle afterwards). -/
def Pointer.release (p : Pointer) : Option Nat × Pointer :=
  (p._pointer, { _pointer := none })

/-- Free `operator==(std::nullptr_t, const Pointer&)`: `return b == nullptr;`. -/
def nullEqPointer (b : Pointer) : Bool := b.beqNull

/-- Free `operator!=(std::nullptr_t, const Pointer&)`: `return b != nullptr;`. -/
def nullNePointer (b : Pointer) : Bool := b.bneNull

/-- Free helper `pointer(T* pointer)`: `return Pointer<T>{pointer};` (the
`static_assert` against types constructible from their own pointer is a
compile-time guard with no run-time effect). -/
def pointer (q : Option Nat) : Pointer := Pointer.ofRawPtr q

/-- One operation of a handle trace. Handles live in numbered slots; raw
pointers held by the caller are tracked so that adopting constructors are only
fed uniquely-owned pointers, as the documented precondition requires. -/
inductive Op where
  | newRaw (v : Nat)
  | deleteRaw (r : Nat)
  | ctorNull
  | ctorRaw (r : Nat)
  | ctorInPlace (v : Nat)
  | moveCtor (i : Nat)
  | moveAssign (i j : Nat)
  | resetOp (i : Nat) (r : Option Nat)
  | emplaceOp (i : Nat) (v : Nat)
  | releaseOp (i : Nat)
  | destroy (i : Nat)
  deriving DecidableEq, Repr

/-- Machine state: the heap, the handle slots (`none` = the handle's lifetime
has ended or never started), and the raw pointers currently owned by the
caller. -/
structure MState where
  heap : Heap Nat
  handles : List (Option Pointer)
  raws : List Nat
  deriving DecidableEq, Repr

/-- One step of the trace machine. Operations whose preconditions do not hold
(dead slot, raw pointer not owned by the caller) are no-ops. -/
def step (s : MState) : Op → MState
  | Op.newRaw v =>
    { s with heap := (s.heap.alloc v).2, raws := (s.heap.alloc v).1 :: s.raws }
  | Op.deleteRaw r =>
    if r ∈ s.raws then
      { s with heap := s.heap.deleteP (some r), raws := s.raws.erase r }
    else s
  | Op.ctorNull =>
    { s with handles := s.handles ++ [some Pointer.nil] }
  | Op.ctorRaw r =>
    if r ∈ s.raws then
      { s with handles := s.handles ++ [some (Pointer.ofRawPtr (some r))],
               raws := s.raws.erase r }
    else s
  | Op.ctorInPlace v =>
    { s with heap := (Pointer.inPlaceInit s.heap v).2,
             handles := s.handles ++ [some (Pointer.inPlaceInit s.heap v).1] }
  | Op.moveCtor i =>
    match s.handles.getD i none with
    | some p =>
      { s with handles := (s.handles.set i (some (Pointer.moveCtor p).2))
                            ++ [some (Pointer.moveCtor p).1] }
    | none => s
  | Op.moveAssign i j =>
    match s.handles.getD i none, s.handles.getD j none with
    | some pi, some pj =>
      { s with handles := (s.handles.set i (some (Pointer.moveAssign pi pj).1)).set j
                            (some (Pointer.moveAssign pi pj).2) }
    | _, _ => s
  | Op.resetOp i r =>
    match s.handles.getD i none with
    | some p =>
      match r with
      | some rr =>
        if rr ∈ s.raws then
          { heap := (p.reset s.heap (some rr)).2,
            handles := s.handles.set i (some (p.reset s.heap (some rr)).1),
            raws := s.raws.erase rr }
        else s
      | none =>
        { s with heap := (p.reset s.heap none).2,
                 handles := s.handles.set i (some (p.reset s.heap none).1) }
    | none => s
  | Op.emplaceOp i v =>
    match s.handles.getD i none with
    | some p =>
      { s with heap := (p.emplace s.heap v).2.1,
               handles := s.handles.set i (some (p.emplace s.heap v).1) }
    | none => s
  | Op.releaseOp i =>
    match s.handles.getD i none with
    | some p =>
      { s with handles := s.handles.set i (some p.release.2),
               raws := p.release.1.toList ++ s.raws }
    | none => s
  | Op.destroy i =>
    match s.handles.getD i none with
    | some p =>
      { s with heap := Pointer.destructor s.heap p,
               handles := s.handles.set i none }
    | none => s

/-- The empty initial state: empty heap, no handles, no caller-owned raws. -/
def init : MState :=
  { heap := { next := 0, mem := [], frees := [] }, handles := [], raws := [] }

/-- Run a trace from the initial state. -/
def run (ops : List Op) : MState :=
  ops.foldl step init

/-- How many times the possibly-null pointer `q` points at cell `n` (0 or 1). -/
def ptrCount (q : Option Nat) (n : Nat) : Nat :=
  if q = some n then 1 else 0

/-- How many references a handle slot holds to cell `n` (0 or 1). -/
def slotCount : Option Pointer → Nat → Nat
  | some p, n => ptrCount p._pointer n
  | none, _ => 0

/-- Total number of references the handle slots hold to cell `n`. -/
def ownedCount : List (Option Pointer) → Nat → Nat
  | [], _ => 0
  | a :: t, n => slotCount a n + ownedCount t n

/-- Total number of outstanding references to cell `n`: handle-owned, plus
caller-owned raw, plus already deallocated. -/
def occ (s : MState) (n : Nat) : Nat :=
  ownedCount s.handles n + s.raws.count n + s.heap.frees.count n

/-- Ownership invariant: every cell has at most one outstanding reference, and
cells at or beyond the allocation frontier have none. -/
def OwnInv (s : MState) : Prop :=
  ∀ n : Nat, occ s n ≤ 1 ∧ (s.heap.next ≤ n → occ s n = 0)

theorem ownedCount_append (l m : List (Option Pointer)) (n : Nat) :
    ownedCount (l ++ m) n = ownedCount l n + ownedCount m n := by
  induction l with
  | nil => simp [ownedCount]
  | cons a t ih =>
    rw [List.cons_append]
    simp only [ownedCount]
    rw [ih]
    omega

theorem getD_some_lt {l : List (Option Pointer)} {i : Nat} {p : Pointer}
    (h : l.getD i none = some p) : i < l.length := by
  induction l generalizing i with
  | nil => simp [List.getD_nil] at h
  | cons a t ih =>
    cases i with
    | zero => simp
    | succ k =>
      rw [List.getD_cons_succ] at h
      have := ih h
      simpa using Nat.succ_lt_succ this

theorem ownedCount_set (l : List (Option Pointer)) (i : Nat) (v : Option Pointer) (n : Nat)
    (h : i < l.length) :
    ownedCount (l.set i v) n + slotCount (l.getD i none) n
      = ownedCount l n + slotCount v n := by
  induction l generalizing i with
  | nil => simp at h
  | cons a t ih =>
    cases i with
    | zero => simp only [List.set_cons_zero, List.getD_cons_zero, ownedCount]; omega
    | succ k =>
      simp only [List.set_cons_succ, List.getD_cons_succ, ownedCount]
      have := ih k (by simpa using h)
      omega

theorem slot_le_ownedCount {l : List (Option Pointer)} {i : Nat} {p : Pointer}
    (h : l.getD i none = some p) (n : Nat) :
    ptrCount p._pointer n ≤ ownedCount l n := by
  induction l generalizing i with
  | nil => simp [List.getD_nil] at h
  | cons a t ih =>
    cases i with
    | zero =>
      rw [List.getD_cons_zero] at h
      subst h
      simp only [ownedCount, slotCount]
      omega
    | succ k =>
      rw [List.getD_cons_succ] at h
      have := ih h
      simp only [ownedCount]
      omega

theorem count_toList (q : Option Nat) (n : Nat) :
    (q.toList).count n = ptrCount q n := by
  cases q with
  | none => simp [ptrCount]
  | some a =>
    simp only [Option.toList, List.count_cons, List.count_nil, ptrCount]
    by_cases ha : a = n <;> simp [ha]

theorem count_erase_mem (l : List Nat) (r n : Nat) (h : r ∈ l) :
    (l.erase r).count n + ptrCount (some r) n = l.count n := by
  have hc := List.count_erase n r l
  by_cases hn : n = r
  · subst hn
    have hp : 0 < l.count n := List.count_pos_iff.mpr h
    simp only [beq_self_eq_true, if_true, ptrCount, if_pos rfl] at hc ⊢
    omega
  · have hrn : r ≠ n := fun hh => hn hh.symm
    have hb : (r == n) = false := by simp [hrn]
    simp only [hb, Bool.false_eq_true, if_false, Nat.sub_zero] at hc
    have hp : ptrCount (some r) n = 0 := by simp [ptrCount, hrn]
    rw [hp, hc]
    omega

theorem frees_deleteP (h : Heap α) (q : Option Nat) :
    (h.deleteP q).frees = q.toList ++ h.frees := by
  cases q <;> rfl

theorem next_deleteP (h : Heap α) (q : Option Nat) :
    (h.deleteP q).next = h.next := by
  cases q <;> rfl

theorem set_getD_self {l : List (Option Pointer)} {i : Nat} {p : Pointer}
    (h : l.getD i none = some p) : l.set i (some p) = l := by
  induction l generalizing i with
  | nil => rfl
  | cons a t ih =>
    cases i with
    | zero => rw [List.getD_cons_zero] at h; simp [h]
    | succ k =>
      rw [List.getD_cons_succ] at h
      simp [ih h]

theorem if_beq_eq_ptrCount (r n : Nat) :
    (if (r == n) = true then 1 else 0) = ptrCount (some r) n := by
  by_cases h : r = n <;> simp [ptrCount, h]

theorem ptrCount_none (n : Nat) : ptrCount none n = 0 := rfl

theorem occ_newRaw (s : MState) (v n : Nat) :
    occ (step s (Op.newRaw v)) n = occ s n + ptrCount (some s.heap.next) n
      ∧ (step s (Op.newRaw v)).heap.next = s.heap.next + 1 := by
  constructor
  · simp only [step, occ, Heap.alloc, List.count_cons, if_beq_eq_ptrCount]
    omega
  · rfl

theorem occ_deleteRaw (s : MState) (r n : Nat) (hr : r ∈ s.raws) :
    occ (step s (Op.deleteRaw r)) n = occ s n
      ∧ (step s (Op.deleteRaw r)).heap.next = s.heap.next := by
  have hce := count_erase_mem s.raws r n hr
  constructor
  · simp only [step, if_pos hr, occ, Heap.deleteP, List.count_cons, if_beq_eq_ptrCount]
    omega
  · simp only [step, if_pos hr, Heap.deleteP]

theorem occ_ctorNull (s : MState) (n : Nat) :
    occ (step s Op.ctorNull) n = occ s n
      ∧ (step s Op.ctorNull).heap.next = s.heap.next := by
  constructor
  · simp only [step, occ, ownedCount_append]
    have h0 : ownedCount [some Pointer.nil] n = 0 := by
      simp [ownedCount, slotCount, Pointer.nil, ptrCount]
    omega
  · rfl

theorem occ_ctorRaw (s : MState) (r n : Nat) (hr : r ∈ s.raws) :
    occ (step s (Op.ctorRaw r)) n = occ s n
      ∧ (step s (Op.ctorRaw r)).heap.next = s.heap.next := by
  have hce := count_erase_mem s.raws r n hr
  constructor
  · simp only [step, if_pos hr, occ, ownedCount_append]
    have h0 : ownedCount [some (Pointer.ofRawPtr (some r))] n = ptrCount (some r) n := by
      simp [ownedCount, slotCount, Pointer.ofRawPtr]
    omega
  · simp only [step, if_pos hr]

theorem occ_ctorInPlace (s : MState) (v n : Nat) :
    occ (step s (Op.ctorInPlace v)) n = occ s n + ptrCount (some s.heap.next) n
      ∧ (step s (Op.ctorInPlace v)).heap.next = s.heap.next + 1 := by
  constructor
  · simp only [step, occ, Pointer.inPlaceInit, Heap.alloc, ownedCount_append]
    have h0 : ownedCount [some ({ _pointer := some s.heap.next } : Pointer)] n
        = ptrCount (some s.heap.next) n := by
      simp [ownedCount, slotCount]
    omega
  · rfl

theorem occ_moveCtor (s : MState) (i n : Nat) (p : Pointer)
    (hg : s.handles.getD i none = some p) :
    occ (step s (Op.moveCtor i)) n = occ s n
      ∧ (step s (Op.moveCtor i)).heap.next = s.heap.next := by
  have hli : i < s.handles.length := getD_some_lt hg
  have hset := ownedCount_set s.handles i (some (Pointer.moveCtor p).2) n hli
  rw [hg] at hset
  constructor
  · simp only [step, hg, occ, ownedCount_append]
    have h1 : ownedCount [some (Pointer.moveCtor p).1] n = ptrCount p._pointer n := by
      simp [ownedCount, slotCount, Pointer.moveCtor]
    have h2 : slotCount (some (Pointer.moveCtor p).2) n = 0 := by
      simp [slotCount, Pointer.moveCtor, ptrCount]
    have h3 : slotCount (some p) n = ptrCount p._pointer n := rfl
    omega
  · simp only [step, hg]

theorem getD_set_ne {β : Type} (l : List β) (i j : Nat) (u d : β) (hij : i ≠ j) :
    (l.set i u).getD j d = l.getD j d := by
  simp [List.getD_eq_getElem?_getD, List.getElem?_set_ne hij]

theorem occ_moveAssign (s : MState) (i j n : Nat) (pi pj : Pointer)
    (hgi : s.handles.getD i none = some pi) (hgj : s.handles.getD j none = some pj) :
    occ (step s (Op.moveAssign i j)) n = occ s n
      ∧ (step s (Op.moveAssign i j)).heap.next = s.heap.next := by
  have hli : i < s.handles.length := getD_some_lt hgi
  have hlj : j < s.handles.length := getD_some_lt hgj
  refine ⟨?_, by simp only [step, hgi, hgj]⟩
  by_cases hij : i = j
  · subst hij
    rw [hgi] at hgj
    injection hgj with hpp
    subst hpp
    have hpe : ({ _pointer := pi._pointer } : Pointer) = pi := rfl
    simp only [step, hgi, occ, Pointer.moveAssign]
    rw [List.set_set, hpe, set_getD_self hgi]
  · have hg1 : (s.handles.set i (some (Pointer.moveAssign pi pj).1)).getD j none
        = some pj := by
      rw [getD_set_ne _ i j _ none hij]
      exact hgj
    have hset1 := ownedCount_set s.handles i (some (Pointer.moveAssign pi pj).1) n hli
    rw [hgi] at hset1
    have hlj1 : j < (s.handles.set i (some (Pointer.moveAssign pi pj).1)).length := by
      simpa using hlj
    have hset2 := ownedCount_set (s.handles.set i (some (Pointer.moveAssign pi pj).1)) j
      (some (Pointer.moveAssign pi pj).2) n hlj1
    rw [hg1] at hset2
    simp only [step, hgi, hgj, occ]
    have e1 : slotCount (some (Pointer.moveAssign pi pj).1) n = ptrCount pj._pointer n := rfl
    have e2 : slotCount (some (Pointer.moveAssign pi pj).2) n = ptrCount pi._pointer n := rfl
    have e3 : slotCount (some pi) n = ptrCount pi._pointer n := rfl
    have e4 : slotCount (some pj) n = ptrCount pj._pointer n := rfl
    omega

theorem occ_resetSome (s : MState) (i rr n : Nat) (p : Pointer)
    (hg : s.handles.getD i none = some p) (hr : rr ∈ s.raws) :
    occ (step s (Op.resetOp i (some rr))) n = occ s n
      ∧ (step s (Op.resetOp i (some rr))).heap.next = s.heap.next := by
  have hli := getD_some_lt hg
  have hset := ownedCount_set s.handles i (some (p.reset s.heap (some rr)).1) n hli
  rw [hg] at hset
  have hce := count_erase_mem s.raws rr n hr
  refine ⟨?_, by simp only [step, hg, if_pos hr, Pointer.reset, next_deleteP]⟩
  simp only [step, hg, if_pos hr, occ, Pointer.reset]
  rw [frees_deleteP, List.count_append, count_toList]
  simp only [Pointer.reset] at hset
  have e1 : slotCount (some ({ _pointer := some rr } : Pointer)) n = ptrCount (some rr) n := rfl
  have e3 : slotCount (some p) n = ptrCount p._pointer n := rfl
  omega

theorem occ_resetNone (s : MState) (i n : Nat) (p : Pointer)
    (hg : s.handles.getD i none = some p) :
    occ (step s (Op.resetOp i none)) n = occ s n
      ∧ (step s (Op.resetOp i none)).heap.next = s.heap.next := by
  have hli := getD_some_lt hg
  have hset := ownedCount_set s.handles i (some (p.reset s.heap none).1) n hli
  rw [hg] at hset
  refine ⟨?_, by simp only [step, hg, Pointer.reset, next_deleteP]⟩
  simp only [step, hg, occ, Pointer.reset]
  rw [frees_deleteP, List.count_append, count_toList]
  simp only [Pointer.reset] at hset
  have e1 : slotCount (some ({ _pointer := none } : Pointer)) n = 0 := rfl
  have e3 : slotCount (some p) n = ptrCount p._pointer n := rfl
  omega

theorem occ_emplace (s : MState) (i v n : Nat) (p : Pointer)
    (hg : s.handles.getD i none = some p) :
    occ (step s (Op.emplaceOp i v)) n = occ s n + ptrCount (some s.heap.next) n
      ∧ (step s (Op.emplaceOp i v)).heap.next = s.heap.next + 1 := by
  have hli := getD_some_lt hg
  have ha1 : ((s.heap.deleteP p._pointer).alloc v).1 = s.heap.next := by
    simp [Heap.alloc, next_deleteP]
  have hfr2 : ((s.heap.deleteP p._pointer).alloc v).2.frees
      = p._pointer.toList ++ s.heap.frees := by
    simp [Heap.alloc, frees_deleteP]
  have hnx : ((s.heap.deleteP p._pointer).alloc v).2.next = s.heap.next + 1 := by
    simp [Heap.alloc, next_deleteP]
  have hset := ownedCount_set s.handles i (some (p.emplace s.heap v).1) n hli
  rw [hg] at hset
  refine ⟨?_, by simp only [step, hg, Pointer.emplace]; exact hnx⟩
  simp only [step, hg, occ, Pointer.emplace]
  rw [hfr2, List.count_append, count_toList, ha1]
  simp only [Pointer.emplace] at hset
  rw [ha1] at hset
  have e1 : slotCount (some ({ _pointer := some s.heap.next } : Pointer)) n
      = ptrCount (some s.heap.next) n := rfl
  have e3 : slotCount (some p) n = ptrCount p._pointer n := rfl
  omega

theorem occ_release (s : MState) (i n : Nat) (p : Pointer)
    (hg : s.handles.getD i none = some p) :
    occ (step s (Op.releaseOp i)) n = occ s n
      ∧ (step s (Op.releaseOp i)).heap.next = s.heap.next := by
  have hli := getD_some_lt hg
  have hset := ownedCount_set s.handles i (some p.release.2) n hli
  rw [hg] at hset
  simp only [Pointer.release] at hset
  refine ⟨?_, by simp only [step, hg]⟩
  simp only [step, hg, occ, Pointer.release]
  rw [List.count_append, count_toList]
  have e1 : slotCount (some ({ _pointer := none } : Pointer)) n = 0 := rfl
  have e3 : slotCount (some p) n = ptrCount p._pointer n := rfl
  omega

theorem occ_destroy (s : MState) (i n : Nat) (p : Pointer)
    (hg : s.handles.getD i none = some p) :
    occ (step s (Op.destroy i)) n = occ s n
      ∧ (step s (Op.destroy i)).heap.next = s.heap.next := by
  have hli := getD_some_lt hg
  have hset := ownedCount_set s.handles i none n hli
  rw [hg] at hset
  refine ⟨?_, by simp only [step, hg, Pointer.destructor, next_deleteP]⟩
  simp only [step, hg, occ, Pointer.destructor]
  rw [frees_deleteP, List.count_append, count_toList]
  have e1 : slotCount (none : Option Pointer) n = 0 := rfl
  have e3 : slotCount (some p) n = ptrCount p._pointer n := rfl
  omega

theorem ownInv_of_eq (s s2 : MState) (hInv : OwnInv s)
    (he : ∀ n, occ s2 n = occ s n) (hn : s2.heap.next = s.heap.next) : OwnInv s2 := by
  intro n
  obtain ⟨h1, h2⟩ := hInv n
  rw [he n, hn]
  exact ⟨h1, h2⟩

theorem ownInv_of_alloc (s s2 : MState) (hInv : OwnInv s)
    (he : ∀ n, occ s2 n = occ s n + ptrCount (some s.heap.next) n)
    (hn : s2.heap.next = s.heap.next + 1) : OwnInv s2 := by
  intro n
  obtain ⟨h1, h2⟩ := hInv n
  rw [he n, hn]
  by_cases hq : n = s.heap.next
  · subst hq
    have h0 := (hInv s.heap.next).2 le_rfl
    have hp1 : ptrCount (some s.heap.next) s.heap.next = 1 := by simp [ptrCount]
    refine ⟨?_, fun hge => ?_⟩
    · omega
    · omega
  · have hp : ptrCount (some s.heap.next) n = 0 := by
      simp only [ptrCount, Option.some.injEq]
      exact if_neg (fun hh => hq hh.symm)
    refine ⟨?_, fun hge => ?_⟩
    · omega
    · have h0 := h2 (by omega)
      omega

theorem ownInv_step (s : MState) (op : Op) (hInv : OwnInv s) : OwnInv (step s op) := by
  cases op with
  | newRaw v =>
    exact ownInv_of_alloc s _ hInv (fun n => (occ_newRaw s v n).1) (occ_newRaw s v 0).2
  | deleteRaw r =>
    by_cases hr : r ∈ s.raws
    · exact ownInv_of_eq s _ hInv (fun n => (occ_deleteRaw s r n hr).1) (occ_deleteRaw s r 0 hr).2
    · simpa only [step, if_neg hr] using hInv
  | ctorNull =>
    exact ownInv_of_eq s _ hInv (fun n => (occ_ctorNull s n).1) (occ_ctorNull s 0).2
  | ctorRaw r =>
    by_cases hr : r ∈ s.raws
    · exact ownInv_of_eq s _ hInv (fun n => (occ_ctorRaw s r n hr).1) (occ_ctorRaw s r 0 hr).2
    · simpa only [step, if_neg hr] using hInv
  | ctorInPlace v =>
    exact ownInv_of_alloc s _ hInv (fun n => (occ_ctorInPlace s v n).1) (occ_ctorInPlace s v 0).2
  | moveCtor i =>
    cases hg : s.handles.getD i none with
    | some p =>
      exact ownInv_of_eq s _ hInv (fun n => (occ_moveCtor s i n p hg).1) (occ_moveCtor s i 0 p hg).2
    | none => simpa only [step, hg] using hInv
  | moveAssign i j =>
    cases hgi : s.handles.getD i none with
    | none =>
      cases hgj : s.handles.getD j none with
      | none => simpa only [step, hgi, hgj] using hInv
      | some pj => simpa only [step, hgi, hgj] using hInv
    | some pi =>
      cases hgj : s.handles.getD j none with
      | none => simpa only [step, hgi, hgj] using hInv
      | some pj =>
        exact ownInv_of_eq s _ hInv (fun n => (occ_moveAssign s i j n pi pj hgi hgj).1)
          (occ_moveAssign s i j 0 pi pj hgi hgj).2
  | resetOp i r =>
    cases hg : s.handles.getD i none with
    | none => simpa only [step, hg] using hInv
    | some p =>
      cases r with
      | none =>
        exact ownInv_of_eq s _ hInv (fun n => (occ_resetNone s i n p hg).1)
          (occ_resetNone s i 0 p hg).2
      | some rr =>
        by_cases hr : rr ∈ s.raws
        · exact ownInv_of_eq s _ hInv (fun n => (occ_resetSome s i rr n p hg hr).1)
            (occ_resetSome s i rr 0 p hg hr).2
        · simpa only [step, hg, if_neg hr] using hInv
  | emplaceOp i v =>
    cases hg : s.handles.getD i none with
    | none => simpa only [step, hg] using hInv
    | some p =>
      exact ownInv_of_alloc s _ hInv (fun n => (occ_emplace s i v n p hg).1)
        (occ_emplace s i v 0 p hg).2
  | releaseOp i =>
    cases hg : s.handles.getD i none with
    | none => simpa only [step, hg] using hInv
    | some p =>
      exact ownInv_of_eq s _ hInv (fun n => (occ_release s i n p hg).1)
        (occ_release s i 0 p hg).2
  | destroy i =>
    cases hg : s.handles.getD i none with
    | none => simpa only [step, hg] using hInv
    | some p =>
      exact ownInv_of_eq s _ hInv (fun n => (occ_destroy s i n p hg).1)
        (occ_destroy s i 0 p hg).2

theorem ownInv_foldl (ops : List Op) (s : MState) (h : OwnInv s) :
    OwnInv (ops.foldl step s) := by
  induction ops generalizing s with
  | nil => exact h
  | cons op t ih => exact ih (step s op) (ownInv_step s op h)

theorem ownInv_init : OwnInv init := by
  intro n
  refine ⟨?_, fun _ => ?_⟩ <;> simp [occ, init, ownedCount]

theorem ownInv_run (ops : List Op) : OwnInv (run ops) :=
  ownInv_foldl ops init ownInv_init

theorem count_frees_step (s : MState) (op : Op) (n : Nat) :
    s.heap.frees.count n ≤ (step s op).heap.frees.count n := by
  cases op with
  | newRaw v => simp only [step, Heap.alloc]; exact le_rfl
  | deleteRaw r =>
    by_cases hr : r ∈ s.raws
    · simp only [step, if_pos hr, Heap.deleteP, List.count_cons]
      omega
    · simp only [step, if_neg hr]; exact le_rfl
  | ctorNull => exact le_rfl
  | ctorRaw r =>
    by_cases hr : r ∈ s.raws
    · simp only [step, if_pos hr]; exact le_rfl
    · simp only [step, if_neg hr]; exact le_rfl
  | ctorInPlace v => simp only [step, Pointer.inPlaceInit, Heap.alloc]; exact le_rfl
  | moveCtor i =>
    cases hg : s.handles.getD i none <;> simp only [step, hg] <;> exact le_rfl
  | moveAssign i j =>
    cases hgi : s.handles.getD i none <;> cases hgj : s.handles.getD j none <;>
      simp only [step, hgi, hgj] <;> exact le_rfl
  | resetOp i r =>
    cases hg : s.handles.getD i none with
    | none => simp only [step, hg]; exact le_rfl
    | some p =>
      cases r with
      | none =>
        simp only [step, hg, Pointer.reset]
        rw [frees_deleteP, List.count_append]
        omega
      | some rr =>
        by_cases hr : rr ∈ s.raws
        · simp only [step, hg, if_pos hr, Pointer.reset]
          rw [frees_deleteP, List.count_append]
          omega
        · simp only [step, hg, if_neg hr]; exact le_rfl
  | emplaceOp i v =>
    cases hg : s.handles.getD i none with
    | none => simp only [step, hg]; exact le_rfl
    | some p =>
      simp only [step, hg, Pointer.emplace, Heap.alloc]
      rw [frees_deleteP, List.count_append]
      omega
  | releaseOp i =>
    cases hg : s.handles.getD i none <;> simp only [step, hg] <;> exact le_rfl
  | destroy i =>
    cases hg : s.handles.getD i none with
    | none => simp only [step, hg]; exact le_rfl
    | some p =>
      simp only [step, hg, Pointer.destructor]
      rw [frees_deleteP, List.count_append]
      omega

theorem count_frees_foldl (s : MState) (ops : List Op) (n : Nat) :
    s.heap.frees.count n ≤ (ops.foldl step s).heap.frees.count n := by
  induction ops generalizing s with
  | nil => exact le_rfl
  | cons op t ih => exact le_trans (count_frees_step s op n) (ih (step s op))

theorem destroy_frees_once (s : MState) (i id : Nat) (hInv : OwnInv s)
    (h : s.handles.getD i none = some { _pointer := some id }) :
    (step s (Op.destroy i)).heap.frees.count id = 1 := by
  have h1 : (1 : Nat) ≤ ownedCount s.handles id := by
    have hle := slot_le_ownedCount h id
    simpa [ptrCount] using hle
  have h2 := (hInv id).1
  have hF : s.heap.frees.count id = 0 := by
    simp only [occ] at h2
    omega
  simp only [step, h, Pointer.destructor]
  rw [frees_deleteP, List.count_append, count_toList]
  simp [ptrCount, hF]

theorem lookup_filter_ne {β : Type} (l : List (Nat × β)) (m r : Nat) (hne : r ≠ m) :
    (l.filter (fun kv => kv.1 != m)).lookup r = l.lookup r := by
  induction l with
  | nil => rfl
  | cons kv t ih =>
    obtain ⟨k, b⟩ := kv
    simp only [List.filter_cons]
    by_cases hk : k = m
    · have hf : ((k, b).1 != m) = false := by simp [hk]
      rw [hf]
      simp only [Bool.false_eq_true, if_false]
      have hrk : r ≠ k := fun hh => hne (hh.trans hk)
      have hb : (r == k) = false := by simp [hrk]
      rw [ih]
      simp [List.lookup, hb]
    · have hf : ((k, b).1 != m) = true := by simp [hk]
      rw [hf]
      simp only [if_true]
      by_cases hrk : r = k
      · subst hrk
        simp [List.lookup]
      · have hb : (r == k) = false := by simp [hrk]
        simp [List.lookup, hb, ih]

theorem run_append_destroy (ops more : List Op) (i : Nat) :
    run (ops ++ Op.destroy i :: more)
      = more.foldl step (step (run ops) (Op.destroy i)) := by
  simp [run, List.foldl_append]

/-- C1: over every finite trace of handle operations (construction, move
transfer, reset, emplace, release, destruction), each heap referent is
deallocated at most once (no double-free); and a referent still owned by a
handle at the moment that handle is destroyed (hence never extracted via
`release`) is deallocated exactly once by the end of the handle's lifetime,
the count staying one over any continuation of the trace (no leak). -/
theorem pointer_no_double_free_no_leak (ops more ops2 : List Op) (i id n : Nat)
    (h : (run ops).handles.getD i none = some { _pointer := some id }) :
    (run ops2).heap.frees.count n ≤ 1 ∧
    (run (ops ++ Op.destroy i :: more)).heap.frees.count id = 1 := by
  constructor
  · have hInv := ownInv_run ops2
    have h1 := (hInv n).1
    simp only [occ] at h1
    omega
  · have hInv := ownInv_run ops
    have honce := destroy_frees_once (run ops) i id hInv h
    have hmono := count_frees_foldl (step (run ops) (Op.destroy i)) more id
    have hInv2 := ownInv_run (ops ++ Op.destroy i :: more)
    have hle := (hInv2 id).1
    simp only [occ] at hle
    rw [run_append_destroy] at hle ⊢
    omega

/-- Witness for C1 at a concrete trace: a handle constructed in place owns
cell 0 and is then destroyed; cell 0 is freed exactly once. -/
theorem pointer_no_double_free_no_leak_witness :
    ((run [Op.ctorInPlace 7]).handles.getD 0 none = some { _pointer := some 0 }) ∧
    ((run [Op.newRaw 1, Op.deleteRaw 0]).heap.frees.count 5 ≤ 1 ∧
     (run ([Op.ctorInPlace 7] ++ Op.destroy 0 :: [Op.ctorNull])).heap.frees.count 0 = 1) :=
  ⟨by decide,
   pointer_no_double_free_no_leak [Op.ctorInPlace 7] [Op.ctorNull]
     [Op.newRaw 1, Op.deleteRaw 0] 0 0 5 (by decide)⟩

/-- C2: move construction transfers the referent: the constructed handle owns
exactly what the source owned, the source becomes empty, destroying the source
afterwards leaves the heap (hence the new owner's referent) untouched, and the
machine step for move construction allocates and deallocates nothing. -/
theorem pointer_move_ctor_transfers (other : Pointer) (h : Heap Nat) (s : MState) (i : Nat) :
    ((Pointer.moveCtor other).1)._pointer = other._pointer ∧
    ((Pointer.moveCtor other).2)._pointer = none ∧
    Pointer.destructor h (Pointer.moveCtor other).2 = h ∧
    (step s (Op.moveCtor i)).heap = s.heap := by
  refine ⟨rfl, rfl, rfl, ?_⟩
  cases hg : s.handles.getD i none <;> simp only [step, hg]

/-- C3: move assignment exchanges ownership (swap semantics): the destination
ends up owning what the source owned and vice versa, no allocation or
deallocation happens during the assignment (heap untouched), and the
destination's previous referent is deallocated only later: destroying the
source afterwards has exactly the effect destroying the old destination would
have had. -/
theorem pointer_move_assign_swaps (d s0 : Pointer) (h : Heap Nat) (s : MState) (i j : Nat) :
    ((Pointer.moveAssign d s0).1)._pointer = s0._pointer ∧
    ((Pointer.moveAssign d s0).2)._pointer = d._pointer ∧
    Pointer.destructor h (Pointer.moveAssign d s0).2 = Pointer.destructor h d ∧
    (step s (Op.moveAssign i j)).heap = s.heap := by
  refine ⟨rfl, rfl, rfl, ?_⟩
  cases hgi : s.handles.getD i none <;> cases hgj : s.handles.getD j none <;>
    simp only [step, hgi, hgj]

/-- C4: a default- or null-constructed handle is empty and allocates nothing:
`get` returns null, `release` returns null and leaves it empty, it compares
equal to nullptr, its boolean conversion is false, and the machine step for
null construction leaves the heap untouched. -/
theorem pointer_default_ctor_empty (s : MState) :
    Pointer.nil.beqNull = true ∧
    Pointer.nil.get = none ∧
    Pointer.nil.release = (none, Pointer.nil) ∧
    Pointer.nil.toBool = false ∧
    (step s Op.ctorNull).heap = s.heap :=
  ⟨rfl, rfl, rfl, rfl, rfl⟩

/-- C5: `reset(q)` always succeeds and leaves the handle owning exactly `q`
(empty when `q` is null); the prior referent, when present, is the one and
only cell deallocated; and adopting a distinct live cell `r` does not affect
that cell's validity: its stored value is still readable afterwards. -/
theorem pointer_reset_spec (h : Heap Nat) (p : Pointer) (q : Option Nat) (r v : Nat) :
    ((p.reset h q).1)._pointer = q ∧
    ((p.reset h q).2).frees = p._pointer.toList ++ h.frees ∧
    (h.lookup r = some v → p._pointer ≠ some r →
      ((p.reset h (some r)).2).lookup r = some v) := by
  refine ⟨rfl, frees_deleteP h p._pointer, fun hmem hne => ?_⟩
  show (h.deleteP p._pointer).lookup r = some v
  cases hp : p._pointer with
  | none => simpa [Heap.deleteP] using hmem
  | some m =>
    have hrm : r ≠ m := fun hh => hne (by rw [hp, hh])
    simp only [Heap.deleteP, Heap.lookup]
    rw [lookup_filter_ne h.mem m r hrm]
    exact hmem

/-- Witness for C5: the handle owns cell 0, the new referent is live cell 1
holding 7; after the reset the handle owns cell 1 and 7 is still readable. -/
theorem pointer_reset_spec_witness :
    (({ next := 2, mem := [(0, 5), (1, 7)], frees := [] } : Heap Nat).lookup 1 = some 7) ∧
    (({ _pointer := some 0 } : Pointer)._pointer ≠ some 1) ∧
    ((({ _pointer := some 0 } : Pointer).reset
        ({ next := 2, mem := [(0, 5), (1, 7)], frees := [] } : Heap Nat) (some 1)).2).lookup 1
      = some 7 :=
  ⟨by decide, by decide,
   (pointer_reset_spec { next := 2, mem := [(0, 5), (1, 7)], frees := [] }
     { _pointer := some 0 } (some 1) 1 7).2.2 (by decide) (by decide)⟩

/-- C6: `emplace(v)` deallocates the prior referent exactly when one was
present, allocates and constructs a new value from the arguments, leaves the
handle owning the new cell, and the returned reference denotes exactly that
newly constructed cell: reading through it yields the constructed value. -/
theorem pointer_emplace_spec (h : Heap Nat) (p : Pointer) (v : Nat) :
    ((p.emplace h v).1)._pointer = some (p.emplace h v).2.2 ∧
    ((p.emplace h v).2.1).lookup (p.emplace h v).2.2 = some v ∧
    ((p.emplace h v).2.1).frees = p._pointer.toList ++ h.frees := by
  refine ⟨rfl, ?_, ?_⟩
  · show (((h.deleteP p._pointer).alloc v).2).lookup ((h.deleteP p._pointer).alloc v).1 = some v
    simp [Heap.alloc, Heap.lookup, List.lookup]
  · show (((h.deleteP p._pointer).alloc v).2).frees = p._pointer.toList ++ h.frees
    simp [Heap.alloc, frees_deleteP]

/-- C7: dereference on a non-empty handle succeeds with access to the referent
and mutates nothing (the assertion's error branch is unreachable), while on an
empty handle both `operator->` and `operator*` trip the assertion facility
with the fixed diagnostic identifying the operation. -/
theorem pointer_deref_assert (h : Heap Nat) (id : Nat) :
    Pointer.arrow { _pointer := some id } = Except.ok (some id) ∧
    Pointer.arrow Pointer.nil = Except.error pointerNullMsg ∧
    Pointer.star h { _pointer := some id } = Except.ok (h.lookup id) ∧
    Pointer.star h Pointer.nil = Except.error pointerNullMsg :=
  ⟨rfl, rfl, rfl, rfl⟩

/-- C8: the emptiness observers are mutually coherent and depend only on the
presence of a referent, never on its value: comparison to nullptr is emptiness,
`!=` is its exact negation, boolean conversion is non-emptiness, the symmetric
free-function comparisons agree with the member comparisons, and which cell a
non-empty handle points to is irrelevant to all of them. -/
theorem pointer_null_observers_coherent (p : Pointer) (a b : Nat) :
    p.beqNull = decide (p._pointer = none) ∧
    p.bneNull = !p.beqNull ∧
    p.toBool = p.bneNull ∧
    nullEqPointer p = p.beqNull ∧
    nullNePointer p = p.bneNull ∧
    Pointer.beqNull { _pointer := some a } = Pointer.beqNull { _pointer := some b } ∧
    Pointer.bneNull { _pointer := some a } = Pointer.bneNull { _pointer := some b } := by
  obtain ⟨q⟩ := p
  cases q <;>
    simp [Pointer.beqNull, Pointer.bneNull, Pointer.toBool, nullEqPointer, nullNePointer]

/-- C9: the helper `pointer(T*)` (the spec's `fromRaw`) is observably
equivalent to the adopt-raw-pointer constructor: for every raw pointer,
including null, it produces exactly the handle the constructor produces,
owning exactly that pointer; neither touches any heap state. -/
theorem pointer_fromRaw_equiv_ctor (q : Option Nat) :
    pointer q = Pointer.ofRawPtr q ∧ (pointer q)._pointer = q :=
  ⟨rfl, rfl⟩

/-- C10: self-move-assignment is a no-op: swapping a handle's pointer with
itself leaves the whole machine state unchanged, with no deallocation and the
referent intact. -/
theorem pointer_self_move_assign_noop (s : MState) (i : Nat) :
    step s (Op.moveAssign i i) = s := by
  cases hg : s.handles.getD i none with
  | none => simp only [step, hg]
  | some p =>
    simp only [step, hg, Pointer.moveAssign]
    rw [List.set_set]
    have hpe : ({ _pointer := p._pointer } : Pointer) = p := rfl
    rw [hpe, set_getD_self hg]
